import Mathlib

/-!
Shallow embedding of the chord-track generator in `src/main.rs`.

Modelling conventions:
* midly's `u28` is modelled as `Nat` with additions reduced modulo `2^28`
  (`u28Mod`); the checked subtraction `safe_sub_u28` keeps the source's
  "panic when `b > a`" behaviour as an `Except` error carrying the same
  diagnostic data (the context label and the two operands).
* Rust `u8` addition (`chord.root + chord.intervals[0]`) is modelled
  modulo `256`; midly's lossy `u7::from(x : u8)` conversion is modelled
  as `x % 128` (truncation to the low 7 bits).
* `chord.intervals[0]` on an empty vector panics in Rust; this is a
  distinct error constructor `GenError.indexOutOfBounds`.
* The `eprintln!` trace output is diagnostic-only and not modelled.
-/

/-- Modulus of midly's 28-bit unsigned integer type `u28`. -/
def u28Mod : Nat := 268435456

/-- The chord data structure (`struct Chord { root: u8, intervals: Vec<u8> }`). -/
structure Chord where
  root : Nat
  intervals : List Nat
  deriving DecidableEq

/-- A MIDI channel message, restricted to the two kinds the program emits. -/
inductive MidiMessage where
  | noteOn (key : Nat) (vel : Nat)
  | noteOff (key : Nat) (vel : Nat)
  deriving DecidableEq

/-- A track event: delta time, channel, and the message
(`TrackEvent { delta, kind: TrackEventKind::Midi { channel, message } }`). -/
structure TrackEvent where
  delta : Nat
  channel : Nat
  message : MidiMessage
  deriving DecidableEq

/-- The diagnostic data printed by `safe_sub_u28` before panicking:
the context label and the two operands `a`, `b` of the subtraction. -/
structure Underflow where
  context : String
  a : Nat
  b : Nat
  deriving DecidableEq

/-- A fatal outcome of generation: the `safe_sub_u28` panic (with its
diagnostic) or the `chord.intervals[0]` index panic. -/
inductive GenError where
  | underflow (u : Underflow)
  | indexOutOfBounds
  deriving DecidableEq

/-- Rust `fn safe_sub_u28(a: u28, b: u28, context: &str) -> u28`: panics
(modelled as `.error`) when `b > a`, else returns `a - b`. -/
def safe_sub_u28 (a b : Nat) (context : String) : Except GenError Nat :=
  if b > a then .error (.underflow ⟨context, a, b⟩) else .ok (a - b)

/-- Rust `fn note_on_event(delta, channel, note, velocity)`. -/
def note_on_event (delta channel note velocity : Nat) : TrackEvent :=
  ⟨delta, channel, .noteOn note velocity⟩

/-- Rust `fn note_off_event(delta, channel, note, velocity)`. -/
def note_off_event (delta channel note velocity : Nat) : TrackEvent :=
  ⟨delta, channel, .noteOff note velocity⟩

/-- The hard-coded strum offsets `let pattern = [0, 120, 240, 360];`. -/
def pattern : List Nat := [0, 120, 240, 360]

/-- The inner `for &offset in &pattern` loop of
`generate_chord_track_events`, for one chord: threads `last_abs_time`
through the strum offsets, emitting a Note-On/Note-Off pair per offset.
Returns the emitted events together with the final `last_abs_time`. -/
def strumLoop (chord : Chord) (channel base_velocity abs_time : Nat) :
    List Nat → Nat → Except GenError (List TrackEvent × Nat)
  | [], last_abs_time => .ok ([], last_abs_time)
  | offset :: rest, last_abs_time =>
    let note_on_abs := (abs_time + offset) % u28Mod
    let note_off_abs := (note_on_abs + 40) % u28Mod
    match chord.intervals with
    | [] => .error .indexOutOfBounds
    | i0 :: _ =>
      let midi_note := (chord.root + i0) % 256
      match safe_sub_u28 note_on_abs last_abs_time "chord note_on delta" with
      | .error e => .error e
      | .ok delta_on =>
        match safe_sub_u28 note_off_abs note_on_abs "chord note_off delta" with
        | .error e => .error e
        | .ok delta_off =>
          match strumLoop chord channel base_velocity abs_time rest note_off_abs with
          | .error e => .error e
          | .ok (evs, last2) =>
            .ok (note_on_event delta_on channel (midi_note % 128) (base_velocity % 128) ::
                 note_off_event delta_off channel (midi_note % 128) 64 :: evs, last2)

/-- The outer `for (ch_idx, chord) in chords.iter().enumerate()` loop:
threads `abs_time` (advanced by one measure per chord) and
`last_abs_time` through the chords, concatenating the emitted events. -/
def chordLoop (channel base_velocity ticks_per_measure : Nat) :
    List Chord → Nat → Nat → Except GenError (List TrackEvent)
  | [], _, _ => .ok []
  | chord :: rest, abs_time, last_abs_time =>
    match strumLoop chord channel base_velocity abs_time pattern last_abs_time with
    | .error e => .error e
    | .ok (evs, last2) =>
      match chordLoop channel base_velocity ticks_per_measure rest
          ((abs_time + ticks_per_measure) % u28Mod) last2 with
      | .error e => .error e
      | .ok evs2 => .ok (evs ++ evs2)

/-- Rust `fn generate_chord_track_events(chords, start_tick,
ticks_per_measure, channel, base_velocity) -> Vec<TrackEvent>`, with the
panic paths made explicit as `Except` errors. -/
def generate_chord_track_events (chords : List Chord)
    (start_tick ticks_per_measure channel base_velocity : Nat) :
    Except GenError (List TrackEvent) :=
  chordLoop channel base_velocity ticks_per_measure chords start_tick start_tick

/-- Accessor: the key (pitch) of an event's message. -/
def TrackEvent.key (e : TrackEvent) : Nat :=
  match e.message with
  | .noteOn k _ => k
  | .noteOff k _ => k

/-- Accessor: the velocity of an event's message. -/
def TrackEvent.vel (e : TrackEvent) : Nat :=
  match e.message with
  | .noteOn _ v => v
  | .noteOff _ v => v

/-- Whether an event is a Note-On. -/
def TrackEvent.isNoteOn (e : TrackEvent) : Bool :=
  match e.message with
  | .noteOn _ _ => true
  | .noteOff _ _ => false

/-- Whether an event is a Note-Off. -/
def TrackEvent.isNoteOff (e : TrackEvent) : Bool :=
  match e.message with
  | .noteOn _ _ => false
  | .noteOff _ _ => true

/-- The absolute event times generated by one chord at cursor `abs_time`
for a list of strum offsets: `note_on_abs` then `note_off_abs` per
offset, exactly as computed in the source (mod `2^28`). -/
def chordAbsTimes (abs_time : Nat) : List Nat → List Nat
  | [] => []
  | offset :: rest =>
    (abs_time + offset) % u28Mod ::
    ((abs_time + offset) % u28Mod + 40) % u28Mod ::
    chordAbsTimes abs_time rest

/-- The absolute event times of the whole generation run: one block of
`chordAbsTimes` per chord, the cursor advancing by one measure
(mod `2^28`) per chord. -/
def genAbsTimes (ticks_per_measure : Nat) : List Chord → Nat → List Nat
  | [], _ => []
  | _ :: rest, abs_time =>
    chordAbsTimes abs_time pattern ++
    genAbsTimes ticks_per_measure rest ((abs_time + ticks_per_measure) % u28Mod)

/-- Successive differences of a list of times against a running
predecessor: `diffList p [t1, t2, ...] = [t1 - p, t2 - t1, ...]`. -/
def diffList : Nat → List Nat → List Nat
  | _, [] => []
  | prev, t :: ts => (t - prev) :: diffList t ts

/-- The last element of a list, with a default for the empty list. -/
def lastD (d : Nat) : List Nat → Nat
  | [] => d
  | t :: ts => lastD t ts

/-- Structural shape of the events emitted for one chord: alternating
Note-On (some delta, fixed note/velocity) and Note-Off (delta 40, same
note, velocity 64) pairs. -/
def pairShape (note channel velOn : Nat) : List TrackEvent → Prop
  | [] => True
  | e1 :: e2 :: rest =>
    (∃ d, e1 = note_on_event d channel note velOn) ∧
    e2 = note_off_event 40 channel note 64 ∧
    pairShape note channel velOn rest
  | [_] => False

/-- Pairing shape across chords: events come in Note-On/Note-Off pairs
on the given channel, each Note-On carrying an in-range key and
velocity, each Note-Off carrying delta 40, the same key, velocity 64. -/
def paired (channel : Nat) : List TrackEvent → Prop
  | [] => True
  | e1 :: e2 :: rest =>
    e1.channel = channel ∧ e1.isNoteOn = true ∧ e1.key < 128 ∧ e1.vel < 128 ∧
    e2 = note_off_event 40 channel e1.key 64 ∧
    paired channel rest
  | [_] => False

/-- Arithmetic helper: if `(x + 40) % u28Mod` is not below `x`, then no
wrap occurred, so the value is exactly `x + 40`. -/
theorem off_no_wrap (x : Nat) (hx : x ≤ (x + 40) % u28Mod) :
    (x + 40) % u28Mod = x + 40 := by
  simp only [u28Mod] at *
  omega

/-- Success characterization of the inner strum loop: the emitted deltas
are the successive differences of the computed absolute times, those
times are non-decreasing from the incoming `last_abs_time`, the returned
`last_abs_time` is the last computed time, and the events have the
Note-On/Note-Off pair shape with the chord's (masked) note. -/
theorem strumLoop_ok (c : Chord) (ch bv abs : Nat) :
    ∀ (offs : List Nat) (last : Nat) (evs : List TrackEvent) (last2 : Nat),
      strumLoop c ch bv abs offs last = .ok (evs, last2) →
      evs.map TrackEvent.delta = diffList last (chordAbsTimes abs offs) ∧
      List.Chain (fun x y => x ≤ y) last (chordAbsTimes abs offs) ∧
      last2 = lastD last (chordAbsTimes abs offs) ∧
      pairShape (((c.root + c.intervals.headD 0) % 256) % 128) ch (bv % 128) evs := by
  intro offs
  induction offs with
  | nil =>
    intro last evs last2 h
    simp only [strumLoop, Except.ok.injEq, Prod.mk.injEq] at h
    obtain ⟨rfl, rfl⟩ := h
    simp [chordAbsTimes, diffList, lastD, pairShape]
  | cons o rest ih =>
    intro last evs last2 h
    cases hI : c.intervals with
    | nil => simp only [strumLoop, hI] at h; cases h
    | cons i0 tl =>
      simp only [strumLoop, hI, safe_sub_u28, gt_iff_lt, Nat.mod_add_mod] at h
      by_cases h1 : (abs + o) % u28Mod < last
      · simp [h1] at h
      · by_cases h2 : (abs + o + 40) % u28Mod < (abs + o) % u28Mod
        · simp [h1, h2] at h
        · simp only [if_neg h1, if_neg h2] at h
          cases hrec : strumLoop c ch bv abs rest ((abs + o + 40) % u28Mod) with
          | error e => rw [hrec] at h; cases h
          | ok p =>
            obtain ⟨evs1, last2x⟩ := p
            rw [hrec] at h
            simp only [Except.ok.injEq, Prod.mk.injEq] at h
            obtain ⟨rfl, rfl⟩ := h
            obtain ⟨ih1, ih2, ih3, ih4⟩ := ih _ _ _ hrec
            have hd : (abs + o + 40) % u28Mod - (abs + o) % u28Mod = 40 := by
              have h2' := h2
              simp only [u28Mod] at h2' ⊢
              omega
            refine ⟨?_, ?_, ?_, ?_⟩
            · simp only [chordAbsTimes, diffList, List.map_cons, Nat.mod_add_mod,
                note_on_event, note_off_event]
              rw [ih1]
            · simp only [chordAbsTimes, Nat.mod_add_mod]
              exact .cons (Nat.le_of_not_lt h1) (.cons (Nat.le_of_not_lt h2) ih2)
            · simpa [chordAbsTimes, lastD, Nat.mod_add_mod] using ih3
            · simp only [pairShape, hI, List.headD_cons]
              refine ⟨⟨(abs + o) % u28Mod - last, rfl⟩, ?_, ?_⟩
              · rw [hd]
              · simpa [hI] using ih4

/-- Error characterization of the inner strum loop: provided the chord
has a first interval, a failing run fails through `safe_sub_u28`, the
diagnostic carrying the two operands (with `a < b`) and one of the two
operation labels; a note_off failure moreover only happens when `b + 40`
wraps past `2^28`. -/
theorem strumLoop_err (c : Chord) (ch bv abs : Nat) (i0 : Nat) (tl : List Nat)
    (hI : c.intervals = i0 :: tl) :
    ∀ (offs : List Nat) (last : Nat) (e : GenError),
      strumLoop c ch bv abs offs last = .error e →
      ∃ u, e = GenError.underflow u ∧ u.a < u.b ∧
        (u.context = "chord note_on delta" ∨
         (u.context = "chord note_off delta" ∧ u28Mod ≤ u.b + 40 ∧
          u.a = (u.b + 40) % u28Mod)) := by
  intro offs
  induction offs with
  | nil => intro last e h; simp only [strumLoop] at h; cases h
  | cons o rest ih =>
    intro last e h
    simp only [strumLoop, hI, safe_sub_u28, gt_iff_lt, Nat.mod_add_mod] at h
    by_cases h1 : (abs + o) % u28Mod < last
    · rw [if_pos h1] at h
      injection h with h'
      subst h'
      exact ⟨_, rfl, h1, Or.inl rfl⟩
    · by_cases h2 : (abs + o + 40) % u28Mod < (abs + o) % u28Mod
      · rw [if_neg h1, if_pos h2] at h
        injection h with h'
        subst h'
        refine ⟨_, rfl, h2, Or.inr ⟨rfl, ?_, (Nat.mod_add_mod _ _ _).symm⟩⟩
        have h2' := h2
        simp only [u28Mod] at h2' ⊢
        omega
      · rw [if_neg h1, if_neg h2] at h
        cases hrec : strumLoop c ch bv abs rest ((abs + o + 40) % u28Mod) with
        | error e0 =>
          rw [hrec] at h
          injection h with h'
          subst h'
          exact ih _ _ hrec
        | ok p =>
          obtain ⟨evs1, last2x⟩ := p
          rw [hrec] at h
          cases h

/-- Totality of the inner strum loop: when the computed absolute times
are non-decreasing from the incoming `last_abs_time` and the chord has a
first interval, the loop succeeds and returns the last computed time. -/
theorem strumLoop_total (c : Chord) (ch bv abs : Nat) (i0 : Nat) (tl : List Nat)
    (hI : c.intervals = i0 :: tl) :
    ∀ (offs : List Nat) (last : Nat),
      List.Chain (fun x y => x ≤ y) last (chordAbsTimes abs offs) →
      ∃ evs, strumLoop c ch bv abs offs last =
        .ok (evs, lastD last (chordAbsTimes abs offs)) := by
  intro offs
  induction offs with
  | nil => intro last hch; exact ⟨[], rfl⟩
  | cons o rest ih =>
    intro last hch
    simp only [chordAbsTimes, Nat.mod_add_mod] at hch
    cases hch with
    | cons hab hch' =>
      cases hch' with
      | cons hbc hch'' =>
        obtain ⟨evs1, hrec⟩ := ih _ hch''
        refine ⟨note_on_event ((abs + o) % u28Mod - last) ch ((c.root + i0) % 256 % 128)
            (bv % 128) ::
          note_off_event ((abs + o + 40) % u28Mod - (abs + o) % u28Mod) ch
            ((c.root + i0) % 256 % 128) 64 :: evs1, ?_⟩
        simp only [strumLoop, hI, safe_sub_u28, gt_iff_lt, Nat.mod_add_mod,
          chordAbsTimes, lastD]
        rw [if_neg (Nat.not_lt.mpr hab), if_neg (Nat.not_lt.mpr hbc), hrec]

/-- `lastD` over an appended list. -/
theorem lastD_append (p : Nat) (t1 t2 : List Nat) :
    lastD p (t1 ++ t2) = lastD (lastD p t1) t2 := by
  induction t1 generalizing p with
  | nil => rfl
  | cons a t ih => simp only [List.cons_append, lastD]; exact ih a

/-- `diffList` over an appended list. -/
theorem diffList_append (p : Nat) (t1 t2 : List Nat) :
    diffList p (t1 ++ t2) = diffList p t1 ++ diffList (lastD p t1) t2 := by
  induction t1 generalizing p with
  | nil => rfl
  | cons a t ih => simp only [List.cons_append, diffList, lastD, List.append_eq]; rw [ih a]

/-- `diffList` preserves length. -/
theorem diffList_length (p : Nat) (ts : List Nat) :
    (diffList p ts).length = ts.length := by
  induction ts generalizing p with
  | nil => rfl
  | cons a t ih => simp [diffList, ih]

/-- `chordAbsTimes` emits two times per offset. -/
theorem chordAbsTimes_length (abs : Nat) (offs : List Nat) :
    (chordAbsTimes abs offs).length = 2 * offs.length := by
  induction offs with
  | nil => rfl
  | cons o rest ih => simp [chordAbsTimes, ih]; omega

/-- Two `≤`-chains concatenate when the second starts at the last
element of the first. -/
theorem chain_le_append (p : Nat) (t1 t2 : List Nat)
    (h1 : List.Chain (fun x y => x ≤ y) p t1)
    (h2 : List.Chain (fun x y => x ≤ y) (lastD p t1) t2) :
    List.Chain (fun x y => x ≤ y) p (t1 ++ t2) := by
  induction t1 generalizing p with
  | nil => exact h2
  | cons a t ih =>
    cases h1 with
    | cons hpa h1' => exact .cons hpa (ih a h1' h2)

/-- `paired` is preserved by concatenation. -/
theorem paired_append (ch : Nat) :
    ∀ l1, paired ch l1 → ∀ l2, paired ch l2 → paired ch (l1 ++ l2)
  | [], _, _, h2 => h2
  | [_], h1, _, _ => by simp [paired] at h1
  | e1 :: e2 :: rest, h1, l2, h2 => by
    simp only [paired] at h1
    simp only [List.cons_append, paired]
    obtain ⟨ha, hb, hc, hd, he, hf⟩ := h1
    exact ⟨ha, hb, hc, hd, he, paired_append ch rest hf l2 h2⟩

/-- A `pairShape` event list with in-range note and velocity is `paired`. -/
theorem pairShape_paired (note ch velOn : Nat) (hn : note < 128) (hv : velOn < 128) :
    ∀ evs, pairShape note ch velOn evs → paired ch evs
  | [], _ => trivial
  | [_], h => by simp [pairShape] at h
  | e1 :: e2 :: rest, h => by
    simp only [pairShape] at h
    obtain ⟨⟨d, rfl⟩, rfl, hrest⟩ := h
    simp only [paired]
    exact ⟨rfl, rfl, hn, hv, rfl, pairShape_paired note ch velOn hn hv rest hrest⟩

/-- Success characterization of the outer chord loop: the deltas are the
successive differences of `genAbsTimes`, those times are non-decreasing
from the incoming `last_abs_time`, 8 events are emitted per chord, and
the events are `paired` on the given channel. -/
theorem chordLoop_ok (ch bv tpm : Nat) :
    ∀ (chords : List Chord) (abs last : Nat) (evs : List TrackEvent),
      chordLoop ch bv tpm chords abs last = .ok evs →
      evs.map TrackEvent.delta = diffList last (genAbsTimes tpm chords abs) ∧
      List.Chain (fun x y => x ≤ y) last (genAbsTimes tpm chords abs) ∧
      evs.length = 8 * chords.length ∧
      paired ch evs := by
  intro chords
  induction chords with
  | nil =>
    intro abs last evs h
    simp only [chordLoop, Except.ok.injEq] at h
    subst h
    simp [genAbsTimes, diffList, paired]
  | cons c rest ih =>
    intro abs last evs h
    simp only [chordLoop] at h
    split at h
    · cases h
    next evs1 last2 hs =>
      split at h
      · cases h
      next evs2 hr =>
        simp only [Except.ok.injEq] at h
        subst h
        obtain ⟨s1, s2, s3, s4⟩ := strumLoop_ok c ch bv abs pattern last evs1 last2 hs
        subst s3
        obtain ⟨r1, r2, r3, r4⟩ := ih _ _ _ hr
        have hlen1 : evs1.length = 8 := by
          have := congrArg List.length s1
          simpa [diffList_length, chordAbsTimes_length, pattern] using this
        refine ⟨?_, ?_, ?_, ?_⟩
        · simp only [genAbsTimes, List.map_append, diffList_append, s1, r1]
        · simp only [genAbsTimes]
          exact chain_le_append _ _ _ s2 r2
        · simp only [List.length_append, hlen1, r3, List.length_cons]
          omega
        · exact paired_append ch evs1 (pairShape_paired _ ch _
            (Nat.mod_lt _ (by norm_num)) (Nat.mod_lt _ (by norm_num)) evs1 s4) evs2 r4

/-- Error characterization of the outer chord loop: provided every chord
has a first interval, a failing run fails through `safe_sub_u28`, with
the diagnostic carrying the two operands and one of the two labels. -/
theorem chordLoop_err (ch bv tpm : Nat) :
    ∀ (chords : List Chord) (abs last : Nat) (e : GenError),
      (∀ c ∈ chords, c.intervals ≠ []) →
      chordLoop ch bv tpm chords abs last = .error e →
      ∃ u, e = GenError.underflow u ∧ u.a < u.b ∧
        (u.context = "chord note_on delta" ∨
         (u.context = "chord note_off delta" ∧ u28Mod ≤ u.b + 40 ∧
          u.a = (u.b + 40) % u28Mod)) := by
  intro chords
  induction chords with
  | nil => intro abs last e hI h; simp only [chordLoop] at h; cases h
  | cons c rest ih =>
    intro abs last e hI h
    have hc : c.intervals ≠ [] := hI c (by simp)
    obtain ⟨i0, tl, hctl⟩ : ∃ i0 tl, c.intervals = i0 :: tl := by
      cases hx : c.intervals with
      | nil => exact absurd hx hc
      | cons a b => exact ⟨a, b, rfl⟩
    simp only [chordLoop] at h
    split at h
    next e0 hs =>
      injection h with h'
      subst h'
      exact strumLoop_err c ch bv abs i0 tl hctl pattern last _ hs
    next evs1 last2 hs =>
      split at h
      next e0 hr =>
        injection h with h'
        subst h'
        exact ih _ _ _ (fun c' hc' => hI c' (List.mem_cons_of_mem _ hc')) hr
      next evs2 hr => cases h

/-- Telescoping: along a non-decreasing chain, the starting point plus
the sum of the first `k+1` successive differences recovers the `k`-th
element. -/
theorem chain_diff_sum :
    ∀ (ts : List Nat) (p : Nat), List.Chain (fun x y => x ≤ y) p ts →
      ∀ (k t : Nat), ts[k]? = some t →
        p + ((diffList p ts).take (k + 1)).sum = t := by
  intro ts
  induction ts with
  | nil => intro p hch k t hk; simp at hk
  | cons a l ih =>
    intro p hch k t hk
    cases hch with
    | cons hpa hch' =>
      cases k with
      | zero =>
        simp only [List.getElem?_cons_zero, Option.some.injEq] at hk
        subst hk
        simp only [diffList, List.take_succ_cons, List.take_zero, List.sum_cons,
          List.sum_nil]
        omega
      | succ k =>
        simp only [List.getElem?_cons_succ] at hk
        have hih := ih a hch' k t hk
        simp only [diffList, List.take_succ_cons, List.sum_cons]
        omega

/-- A Note-On event is not a Note-Off event. -/
theorem isNoteOn_not_isNoteOff (e : TrackEvent) (h : e.isNoteOn = true) :
    e.isNoteOff = false := by
  cases e with
  | mk d c m => cases m <;> simp [TrackEvent.isNoteOn, TrackEvent.isNoteOff] at *

/-- In a `paired` list, the event at position `2*i` is a Note-On and the
event at position `2*i+1` is the matching Note-Off: same key, same
channel, velocity 64. -/
theorem paired_get (ch : Nat) :
    ∀ (evs : List TrackEvent), paired ch evs → ∀ (i : Nat) (e1 e2 : TrackEvent),
      evs[2 * i]? = some e1 → evs[2 * i + 1]? = some e2 →
      e1.isNoteOn = true ∧ e2.isNoteOff = true ∧ e1.key = e2.key ∧
      e1.channel = e2.channel ∧ e2.vel = 64
  | [], _, _, _, _, h1, _ => by simp at h1
  | [_], hp, _, _, _, _, _ => by simp [paired] at hp
  | a :: b :: rest, hp, i, e1, e2, h1, h2 => by
    simp only [paired] at hp
    obtain ⟨hch, hon, _, _, hoff, hrest⟩ := hp
    subst hoff
    cases i with
    | zero =>
      simp only [Nat.mul_zero, List.getElem?_cons_zero, Option.some.injEq,
        Nat.zero_add, List.getElem?_cons_succ] at h1 h2
      subst h1
      subst h2
      refine ⟨hon, rfl, rfl, ?_, rfl⟩
      simpa [note_off_event] using hch
    | succ i =>
      have ha : 2 * (i + 1) = 2 * i + 1 + 1 := by omega
      have hb : 2 * (i + 1) + 1 = 2 * i + 1 + 1 + 1 := by omega
      rw [ha] at h1
      rw [hb] at h2
      simp only [List.getElem?_cons_succ] at h1 h2
      exact paired_get ch rest hrest i e1 e2 h1 h2

/-- In a `paired` list, every Note-Off event carries delta exactly 40. -/
theorem paired_off_delta (ch : Nat) :
    ∀ (evs : List TrackEvent), paired ch evs →
      ∀ e ∈ evs, e.isNoteOff = true → e.delta = 40
  | [], _, e, he, _ => absurd he (List.not_mem_nil e)
  | [_], hp, _, _, _ => by simp [paired] at hp
  | a :: b :: rest, hp, e, he, hoffE => by
    simp only [paired] at hp
    obtain ⟨hch, hon, _, _, hoff, hrest⟩ := hp
    subst hoff
    rcases List.mem_cons.mp he with rfl | he'
    · rw [isNoteOn_not_isNoteOff e hon] at hoffE
      cases hoffE
    · rcases List.mem_cons.mp he' with rfl | he''
      · rfl
      · exact paired_off_delta ch rest hrest e he'' hoffE

/-- In a `paired` list, every event's key and velocity are below 128. -/
theorem paired_mem_bounds (ch : Nat) :
    ∀ (evs : List TrackEvent), paired ch evs →
      ∀ e ∈ evs, e.key < 128 ∧ e.vel < 128
  | [], _, e, he => absurd he (List.not_mem_nil e)
  | [_], hp, _, _ => by simp [paired] at hp
  | a :: b :: rest, hp, e, he => by
    simp only [paired] at hp
    obtain ⟨hch, hon, hk, hv, hoff, hrest⟩ := hp
    subst hoff
    rcases List.mem_cons.mp he with rfl | he'
    · exact ⟨hk, hv⟩
    · rcases List.mem_cons.mp he' with rfl | he''
      · exact ⟨by simpa [note_off_event, TrackEvent.key] using hk,
          by simp [note_off_event, TrackEvent.vel]⟩
      · exact paired_mem_bounds ch rest hrest e he''

/-- C1: the delta computation in `generate_chord_track_events` is
checked. On success every emitted delta is the exact difference of the
successive computed absolute times and those times are non-decreasing
(so no delta is ever wrapped or negative); on failure the run fails
fatally through `safe_sub_u28`, whose diagnostic names the two operands
(`a < b`) and the operation label (`"chord note_on delta"` or
`"chord note_off delta"`). -/
theorem C1_checked_delta (chords : List Chord) (st tpm ch bv : Nat)
    (hI : ∀ c ∈ chords, c.intervals ≠ []) :
    (∀ evs, generate_chord_track_events chords st tpm ch bv = .ok evs →
      evs.map TrackEvent.delta = diffList st (genAbsTimes tpm chords st) ∧
      List.Chain (fun x y => x ≤ y) st (genAbsTimes tpm chords st)) ∧
    (∀ e, generate_chord_track_events chords st tpm ch bv = .error e →
      ∃ u, e = GenError.underflow u ∧ u.a < u.b ∧
        (u.context = "chord note_on delta" ∨ u.context = "chord note_off delta")) := by
  constructor
  · intro evs h
    obtain ⟨h1, h2, _, _⟩ := chordLoop_ok ch bv tpm chords st st evs h
    exact ⟨h1, h2⟩
  · intro e h
    obtain ⟨u, hu, hab, hctx⟩ := chordLoop_err ch bv tpm chords st st e hI h
    exact ⟨u, hu, hab, hctx.imp id And.left⟩

/-- Witness for C1 at a concrete input. -/
theorem C1_checked_delta_witness :
    ([note_on_event 0 0 60 64, note_off_event 40 0 60 64,
      note_on_event 80 0 60 64, note_off_event 40 0 60 64,
      note_on_event 80 0 60 64, note_off_event 40 0 60 64,
      note_on_event 80 0 60 64, note_off_event 40 0 60 64].map TrackEvent.delta =
        diffList 0 (genAbsTimes 1920 [⟨60, [0, 4, 7]⟩] 0)) ∧
    List.Chain (fun x y => x ≤ y) 0 (genAbsTimes 1920 [⟨60, [0, 4, 7]⟩] 0) :=
  (C1_checked_delta [⟨60, [0, 4, 7]⟩] 0 1920 0 64 (by decide)).1 _ rfl

/-- C2 counterexample: with `start_tick = 100` generation succeeds and
the absolute tick position of event 0 (its `note_on_abs`) is 100, but
the cumulative sum of the deltas of events `0..0` is 0, not 100 — the
claim fails whenever `start_tick > 0`. -/
theorem C2_cumsum_counterexample :
    generate_chord_track_events [⟨60, [0, 4, 7]⟩] 100 1920 0 64 =
      .ok [note_on_event 0 0 60 64, note_off_event 40 0 60 64,
           note_on_event 80 0 60 64, note_off_event 40 0 60 64,
           note_on_event 80 0 60 64, note_off_event 40 0 60 64,
           note_on_event 80 0 60 64, note_off_event 40 0 60 64] ∧
    (genAbsTimes 1920 [⟨60, [0, 4, 7]⟩] 100)[0]? = some 100 ∧
    (([note_on_event 0 0 60 64, note_off_event 40 0 60 64,
       note_on_event 80 0 60 64, note_off_event 40 0 60 64,
       note_on_event 80 0 60 64, note_off_event 40 0 60 64,
       note_on_event 80 0 60 64,
       note_off_event 40 0 60 64].map TrackEvent.delta).take 1).sum = 0 ∧
    (0 : Nat) ≠ 100 :=
  ⟨rfl, rfl, rfl, by decide⟩

/-- C2 amended: `start_tick` PLUS the cumulative sum of the deltas of
events `0..k` (inclusive) equals the absolute tick position of event
`k`, and there are exactly as many positions as events. -/
theorem C2_cumsum_amended (chords : List Chord) (st tpm ch bv : Nat)
    (evs : List TrackEvent)
    (h : generate_chord_track_events chords st tpm ch bv = .ok evs) :
    evs.length = (genAbsTimes tpm chords st).length ∧
    ∀ (k t : Nat), (genAbsTimes tpm chords st)[k]? = some t →
      st + ((evs.map TrackEvent.delta).take (k + 1)).sum = t := by
  obtain ⟨h1, h2, _, _⟩ := chordLoop_ok ch bv tpm chords st st evs h
  constructor
  · have hl := congrArg List.length h1
    simpa [diffList_length] using hl
  · intro k t hk
    rw [h1]
    exact chain_diff_sum _ _ h2 k t hk

/-- Witness for the amended C2 at a concrete input with
`start_tick = 5`: position 0 is 5 and the delta sum up to event 0 is 0. -/
theorem C2_cumsum_amended_witness :
    5 + (([note_on_event 0 0 60 64, note_off_event 40 0 60 64,
      note_on_event 80 0 60 64, note_off_event 40 0 60 64,
      note_on_event 80 0 60 64, note_off_event 40 0 60 64,
      note_on_event 80 0 60 64,
      note_off_event 40 0 60 64].map TrackEvent.delta).take 1).sum = 5 :=
  (C2_cumsum_amended [⟨60, [0, 4, 7]⟩] 5 1920 0 64 _ rfl).2 0 5 rfl

/-- C3: on success with a non-empty chord list, the event count is
exactly 8 per chord (2 events per strum offset, 4 offsets per chord). -/
theorem C3_count (chords : List Chord) (st tpm ch bv : Nat)
    (hne : chords ≠ []) (evs : List TrackEvent)
    (h : generate_chord_track_events chords st tpm ch bv = .ok evs) :
    evs.length = 8 * chords.length :=
  (chordLoop_ok ch bv tpm chords st st evs h).2.2.1

/-- Witness for C3 at a concrete input. -/
theorem C3_count_witness :
    ([note_on_event 0 0 60 64, note_off_event 40 0 60 64,
      note_on_event 80 0 60 64, note_off_event 40 0 60 64,
      note_on_event 80 0 60 64, note_off_event 40 0 60 64,
      note_on_event 80 0 60 64, note_off_event 40 0 60 64] :
        List TrackEvent).length = 8 * ([⟨60, [0, 4, 7]⟩] : List Chord).length :=
  C3_count [⟨60, [0, 4, 7]⟩] 0 1920 0 64 (by decide) _ rfl

/-- C4: in every returned event sequence, events pair up as Note-On then
Note-Off per (chord, offset) pair; within a pair the key and channel are
equal; and every Note-Off velocity is the fixed value 64, regardless of
`base_velocity`. -/
theorem C4_pairing (chords : List Chord) (st tpm ch bv : Nat)
    (evs : List TrackEvent)
    (h : generate_chord_track_events chords st tpm ch bv = .ok evs) :
    ∀ (i : Nat) (e1 e2 : TrackEvent),
      evs[2 * i]? = some e1 → evs[2 * i + 1]? = some e2 →
      e1.isNoteOn = true ∧ e2.isNoteOff = true ∧ e1.key = e2.key ∧
      e1.channel = e2.channel ∧ e2.vel = 64 :=
  paired_get ch evs (chordLoop_ok ch bv tpm chords st st evs h).2.2.2

/-- Witness for C4 at a concrete input (with `base_velocity = 100`, to
exhibit the Note-Off velocity staying 64). -/
theorem C4_pairing_witness :
    (note_on_event 0 0 60 100).isNoteOn = true ∧
    (note_off_event 40 0 60 64).isNoteOff = true ∧
    (note_on_event 0 0 60 100).key = (note_off_event 40 0 60 64).key ∧
    (note_on_event 0 0 60 100).channel = (note_off_event 40 0 60 64).channel ∧
    (note_off_event 40 0 60 64).vel = 64 :=
  C4_pairing [⟨60, [0, 4, 7]⟩] 0 1920 0 100 _ rfl 0 _ _ rfl rfl

/-- C5: the concrete scenario — `chords = [{root:60, intervals:[0,4,7]}]`,
`start_tick = 0`, `ticks_per_measure = 1920`, `channel = 0`,
`base_velocity = 64` — yields Note-On(delta 0, note 60, vel 64),
Note-Off(delta 40, note 60, vel 64), Note-On(delta 80, note 60, vel 64)
as its first three events. -/
theorem C5_concrete :
    ∃ evs, generate_chord_track_events [⟨60, [0, 4, 7]⟩] 0 1920 0 64 = .ok evs ∧
      evs[0]? = some (note_on_event 0 0 60 64) ∧
      evs[1]? = some (note_off_event 40 0 60 64) ∧
      evs[2]? = some (note_on_event 80 0 60 64) :=
  ⟨_, rfl, rfl, rfl, rfl⟩

/-- C6 counterexample: with `start_tick = 268435406` (chosen so the
FIRST chord's strum wraps past `2^28`), two chords and
`ticks_per_measure = 100 < 400`, generation does fail fatally with a
note_on-delta diagnostic, but its operands are `a = 70 =
(start_tick + 120) % 2^28` and `b = 268435446 = start_tick + 40` — the
first chord's offset-120 event — not the second chord's first event,
whose operands would be `(start_tick + 100) % 2^28 = 50` and
`(start_tick + 400) % 2^28 = 350`. -/
theorem C6_boundary_counterexample :
    generate_chord_track_events [⟨60, [0]⟩, ⟨60, [0]⟩] 268435406 100 0 64 =
      .error (.underflow ⟨"chord note_on delta", 70, 268435446⟩) ∧
    (⟨"chord note_on delta", 70, 268435446⟩ : Underflow) ≠
      ⟨"chord note_on delta", (268435406 + 100) % u28Mod,
        (268435406 + 400) % u28Mod⟩ :=
  ⟨rfl, by decide⟩

/-- C6 amended: for at least two chords, each with a first interval,
`ticks_per_measure < 400` (the strum span) and `start_tick + 400 <
2^28` (the first chord's strum does not wrap), generation fails fatally
on the second chord's first event: the diagnostic carries the
note_on-delta label with operands `start_tick + ticks_per_measure` (the
second chord's first Note-On time) and `start_tick + 400` (the last
absolute time of the first chord). -/
theorem C6_boundary_amended (c0 c1 : Chord) (rest : List Chord)
    (st tpm ch bv : Nat)
    (hI : ∀ c ∈ c0 :: c1 :: rest, c.intervals ≠ [])
    (htpm : tpm < 400) (hst : st + 400 < u28Mod) :
    generate_chord_track_events (c0 :: c1 :: rest) st tpm ch bv =
      .error (.underflow ⟨"chord note_on delta", st + tpm, st + 400⟩) := by
  obtain ⟨i00, tl0, h0⟩ : ∃ a b, c0.intervals = a :: b := by
    cases hx : c0.intervals with
    | nil => exact absurd hx (hI c0 (by simp))
    | cons a b => exact ⟨a, b, rfl⟩
  obtain ⟨i01, tl1, h1c⟩ : ∃ a b, c1.intervals = a :: b := by
    cases hx : c1.intervals with
    | nil => exact absurd hx (hI c1 (by simp))
    | cons a b => exact ⟨a, b, rfl⟩
  have hstM : st + 400 < 268435456 := hst
  have heq : chordAbsTimes st pattern =
      [st, st + 40, st + 120, st + 160, st + 240, st + 280, st + 360, st + 400] := by
    simp only [pattern, chordAbsTimes, Nat.mod_add_mod, u28Mod, List.cons.injEq,
      and_true]
    refine ⟨?_, ?_, ?_, ?_, ?_, ?_, ?_, ?_⟩ <;> omega
  have hch : List.Chain (fun x y => x ≤ y) st (chordAbsTimes st pattern) := by
    rw [heq]
    exact .cons (by omega) (.cons (by omega) (.cons (by omega) (.cons (by omega)
      (.cons (by omega) (.cons (by omega) (.cons (by omega)
      (.cons (by omega) .nil)))))))
  obtain ⟨evs0, hs0⟩ := strumLoop_total c0 ch bv st i00 tl0 h0 pattern st hch
  rw [heq] at hs0
  simp only [lastD] at hs0
  have hs1 : strumLoop c1 ch bv ((st + tpm) % u28Mod) pattern (st + 400) =
      .error (.underflow ⟨"chord note_on delta", st + tpm, st + 400⟩) := by
    have e1 : ((st + tpm) % u28Mod + 0) % u28Mod = st + tpm := by
      simp only [u28Mod]
      omega
    simp only [pattern, strumLoop, h1c, safe_sub_u28, gt_iff_lt, e1]
    rw [if_pos (by omega : st + tpm < st + 400)]
  simp only [generate_chord_track_events, chordLoop, hs0, hs1]

/-- Witness for the amended C6 at a concrete input. -/
theorem C6_boundary_amended_witness :
    generate_chord_track_events [⟨60, [0]⟩, ⟨60, [0]⟩] 0 100 0 64 =
      .error (.underflow ⟨"chord note_on delta", 0 + 100, 0 + 400⟩) :=
  C6_boundary_amended ⟨60, [0]⟩ ⟨60, [0]⟩ [] 0 100 0 64 (by decide) (by decide)
    (by decide)

/-- C7 counterexample: with `root = 100`, `intervals = [60]`, the midi
note `100 + 60 = 160` lies outside the 7-bit pitch domain, yet
generation succeeds — no caller-input error is surfaced — and every
emitted event silently carries key `32 = 160 % 128`: the out-of-range
`midi_note` IS silently reduced into the 7-bit pitch domain. -/
theorem C7_domain_counterexample :
    generate_chord_track_events [⟨100, [60]⟩] 0 1920 0 64 =
      .ok [note_on_event 0 0 32 64, note_off_event 40 0 32 64,
           note_on_event 80 0 32 64, note_off_event 40 0 32 64,
           note_on_event 80 0 32 64, note_off_event 40 0 32 64,
           note_on_event 80 0 32 64, note_off_event 40 0 32 64] ∧
    ¬ (100 + 60 < 128) ∧ (32 : Nat) = (100 + 60) % 128 :=
  ⟨rfl, by decide, by decide⟩

/-- C7 amended: numeric domain violations are NOT surfaced as errors at
construction time; out-of-range pitch and velocity values are silently
masked into their 7-bit domains, so every emitted event carries
`key < 128` and `vel < 128`. -/
theorem C7_domain_amended (chords : List Chord) (st tpm ch bv : Nat)
    (evs : List TrackEvent)
    (h : generate_chord_track_events chords st tpm ch bv = .ok evs) :
    ∀ e ∈ evs, e.key < 128 ∧ e.vel < 128 :=
  paired_mem_bounds ch evs (chordLoop_ok ch bv tpm chords st st evs h).2.2.2

/-- Witness for the amended C7 at the out-of-range concrete input. -/
theorem C7_domain_amended_witness :
    (note_on_event 0 0 32 64).key < 128 ∧ (note_on_event 0 0 32 64).vel < 128 :=
  C7_domain_amended [⟨100, [60]⟩] 0 1920 0 64 _ rfl (note_on_event 0 0 32 64)
    (by decide)

/-- C8: generation is deterministic — for every fixed input, two
invocations return identical event sequences (the embedding is a pure
function of its arguments). -/
theorem C8_deterministic (chords : List Chord) (st tpm ch bv : Nat) :
    generate_chord_track_events chords st tpm ch bv =
      generate_chord_track_events chords st tpm ch bv := rfl

/-- C9: the empty chord sequence always succeeds — with any parameters —
and returns the empty event sequence. -/
theorem C9_empty (st tpm ch bv : Nat) :
    generate_chord_track_events [] st tpm ch bv = .ok [] := rfl

/-- C10 counterexample: with `start_tick = 268435436 = 2^28 - 20`, the
first Note-On succeeds but `note_off_abs` wraps to 20, and the note_off
checked subtraction DOES fail — it is not failure-free for all inputs. -/
theorem C10_off_delta_counterexample :
    generate_chord_track_events [⟨60, [0]⟩] 268435436 1920 0 64 =
      .error (.underflow ⟨"chord note_off delta", 20, 268435436⟩) := rfl

/-- C10 amended: on success every Note-Off event's delta is exactly 40;
and the note_off checked subtraction fails only when `note_on_abs + 40`
wraps past `2^28` (the diagnostic then satisfies `2^28 ≤ b + 40` and
`a = (b + 40) % 2^28`). -/
theorem C10_off_delta_amended (chords : List Chord) (st tpm ch bv : Nat)
    (hI : ∀ c ∈ chords, c.intervals ≠ []) :
    (∀ evs, generate_chord_track_events chords st tpm ch bv = .ok evs →
      ∀ e ∈ evs, e.isNoteOff = true → e.delta = 40) ∧
    (∀ u, generate_chord_track_events chords st tpm ch bv =
        .error (.underflow u) → u.context = "chord note_off delta" →
      u28Mod ≤ u.b + 40 ∧ u.a = (u.b + 40) % u28Mod) := by
  constructor
  · intro evs h
    exact paired_off_delta ch evs (chordLoop_ok ch bv tpm chords st st evs h).2.2.2
  · intro u h hctx
    obtain ⟨u', hu, hab, hd⟩ := chordLoop_err ch bv tpm chords st st _ hI h
    injection hu with hu'
    subst hu'
    rcases hd with hon | ⟨_, hwrap, harith⟩
    · rw [hctx] at hon
      exact absurd hon (by decide)
    · exact ⟨hwrap, harith⟩

/-- Witness for the amended C10 at a concrete input. -/
theorem C10_off_delta_amended_witness :
    (note_off_event 40 0 60 64).delta = 40 :=
  (C10_off_delta_amended [⟨60, [0, 4, 7]⟩] 0 1920 0 64 (by decide)).1 _ rfl
    (note_off_event 40 0 60 64) (by decide) rfl
